import Mathlib

/-!
# Verification of the NexusCCD duplicate-enrollment toolkit

Shallow embedding of the core algorithms of
`core/management/commands/remove_duplicacy.py`:

* `ranges_overlap_or_adjacent` — the interval overlap/adjacency predicate
  (also duplicated verbatim in `list_multiple_enrollments.py`);
* `find_overlapping_groups` — the connected-component clusterer
  (a change-detection fixpoint loop over a start-sorted list);
* `select_best_enrollment` — the four-tier duplicate resolver;
* `remove_duplicate_group` — the per-group dry-run result builder.

Dates and timestamps are modelled as `Int` (a day / instant count,
`timedelta(days=1)` becomes `+ 1`); nullable columns become `Option`.
Per the data model, `start_date` is a required column, so it is a plain
`Int`; `end_date` and `created_at` stay optional, matching the `None`
checks in the source.  Python's `sorted` / `list.sort` is a stable sort,
which `List.insertionSort` (Mathlib's, stable by construction) models.
The current time (`timezone.now()`), used as a default key for missing
`created_at`, is threaded as an explicit parameter `now`.
-/

/-- An enrollment record, with exactly the fields the commands read. -/
structure Enrollment where
  id : Nat
  start_date : Int
  end_date : Option Int
  is_archived : Bool
  created_at : Option Int
  notes : Option String
  receiving_services_date : Option Int
  status : Option String
  sub_program : Option Nat
deriving DecidableEq, Repr

/-- Function `ranges_overlap_or_adjacent(start1, end1, start2, end2)` from
`remove_duplicacy.py` (lines 52-91).  In the source, the truthiness
guards `end2 and ...` / `end1 and ...` are redundant because a `date`
object is always truthy and the both-`None` case returns first; they are
therefore plain comparisons here. -/
def ranges_overlap_or_adjacent (start1 : Int) (end1 : Option Int)
    (start2 : Int) (end2 : Option Int) : Bool :=
  match end1, end2 with
  | none, none => true
  | none, some e2 => decide (start2 ≥ start1) || decide (e2 ≥ start1)
  | some e1, none => decide (start1 ≥ start2) || decide (e1 ≥ start2)
  | some e1, some e2 =>
      (decide (start1 ≤ e2) && decide (start2 ≤ e1))
        || decide (e1 + 1 = start2) || decide (e2 + 1 = start1)

/-- The overlap check as invoked on two records inside
`find_overlapping_groups` (lines 136-139). -/
def enrollment_overlaps (a b : Enrollment) : Bool :=
  ranges_overlap_or_adjacent a.start_date a.end_date b.start_date b.end_date

/-- The ids of a list of records. -/
def ids (l : List Enrollment) : List Nat := l.map (fun e => e.id)

/-- One pass of the inner `while changed` loop of
`find_overlapping_groups` (lines 128-143): scan the sorted list and
absorb every not-yet-processed record that overlaps some current group
member, appending it to the group and marking its id processed.  The
returned flag is the `changed` variable. -/
def absorb_pass (all : List Enrollment) (group : List Enrollment)
    (processed : List Nat) : List Enrollment × List Nat × Bool :=
  match all with
  | [] => (group, processed, false)
  | other :: rest =>
    if other.id ∈ processed then absorb_pass rest group processed
    else if group.any (fun m => enrollment_overlaps m other) then
      let r := absorb_pass rest (group ++ [other]) (other.id :: processed)
      (r.1, r.2.1, true)
    else absorb_pass rest group processed

/-- The `while changed` loop itself.  The Python loop terminates because
every changing pass strictly shrinks the set of unprocessed records; the
fuel (instantiated below with `all.length + 1`, provably enough) makes
that termination explicit. -/
def absorb_loop (fuel : Nat) (all : List Enrollment)
    (group : List Enrollment) (processed : List Nat) :
    List Enrollment × List Nat :=
  match fuel with
  | 0 => (group, processed)
  | fuel + 1 =>
    let r := absorb_pass all group processed
    if r.2.2 then absorb_loop fuel all r.1 r.2.1 else (r.1, r.2.1)

/-- The outer `for enrollment in sorted_enrollments` loop of
`find_overlapping_groups` (lines 118-147): start a group from each
unprocessed record, run the absorption loop, and emit the group only
when it has more than one member. -/
def fog_outer (all : List Enrollment) (pending : List Enrollment)
    (processed : List Nat) : List (List Enrollment) :=
  match pending with
  | [] => []
  | e :: rest =>
    if e.id ∈ processed then fog_outer all rest processed
    else
      let r := absorb_loop (all.length + 1) all [e] (e.id :: processed)
      if r.1.length > 1 then r.1 :: fog_outer all rest r.2
      else fog_outer all rest r.2

/-- The stable sort by `start_date` of line 110-113 (`e.start_date or
timezone.now().date()`; `start_date` being a required, always-truthy
date, the key is just `start_date`). -/
def sorted_by_start (l : List Enrollment) : List Enrollment :=
  List.insertionSort (fun a b => a.start_date ≤ b.start_date) l

/-- Function `find_overlapping_groups(enrollments)` (lines 93-149). -/
def find_overlapping_groups (enrollments : List Enrollment) :
    List (List Enrollment) :=
  if enrollments.isEmpty then []
  else
    let s := sorted_by_start enrollments
    fog_outer s s []

/-- The `created_at or timezone.now()` sort key of line 175. -/
def ckey (now : Int) (e : Enrollment) : Int := e.created_at.getD now

/-- Python truthiness of the `notes` text column: set and non-empty. -/
def notes_truthy (e : Enrollment) : Bool :=
  match e.notes with
  | some s => decide (s ≠ "")
  | none => false

/-- Python truthiness of the `status` column: set and non-empty. -/
def status_truthy (e : Enrollment) : Bool :=
  match e.status with
  | some s => decide (s ≠ "")
  | none => false

/-- Condition `enrollment.status and enrollment.status != 'pending'` of line 186. -/
def status_counts (e : Enrollment) : Bool :=
  status_truthy e && decide (e.status ≠ some "pending")

/-- Function `completeness_score` (lines 180-190). -/
def completeness_score (e : Enrollment) : Nat :=
  (if notes_truthy e then 10 else 0)
    + (if e.receiving_services_date.isSome then 5 else 0)
    + (if status_counts e then 3 else 0)
    + (if e.sub_program.isSome then 2 else 0)

/-- One iteration of the Priority-3 loop (lines 193-199).  The state is
the pair `(most_recent, best_score)`; a candidate is considered when its
raw `created_at` equals the current `most_recent.created_at` and wins
when its score is strictly greater. -/
def tier3_step (mrb : Enrollment × Nat) (c : Enrollment) : Enrollment × Nat :=
  if c.created_at = mrb.1.created_at then
    if completeness_score c > mrb.2 then (c, completeness_score c) else mrb
  else mrb

/-- The stable descending sort `candidates.sort(key=created_at or now,
reverse=True)` of line 175. -/
def sorted_by_created_desc (now : Int) (l : List Enrollment) : List Enrollment :=
  List.insertionSort (fun a b => ckey now b ≤ ckey now a) l

/-- Priorities 2-4 of `select_best_enrollment`, operating on the already
sorted candidate list: `most_recent = candidates[0]`, the Priority-3
rescan, then the Priority-4 re-filter of `candidates` and stable ascending
sort by `start_date` (lines 174-211).  The empty case models the
`candidates[0]` IndexError on an empty cluster as an absent result. -/
def select_best_from_sorted (candidates_sorted : List Enrollment) :
    Option Enrollment :=
  match candidates_sorted with
  | [] => none
  | most_recent :: rest =>
    let mrb := (most_recent :: rest).foldl tier3_step
      (most_recent, completeness_score most_recent)
    let same_completeness := (most_recent :: rest).filter
      (fun e => decide (e.created_at = mrb.1.created_at)
        && decide (completeness_score e = mrb.2))
    match sorted_by_start same_completeness with
    | [] => some mrb.1
    | s :: _ => some s

/-- Function `select_best_enrollment(enrollments)` (lines 151-211).  Returns
`none` exactly when the Python code would raise (empty input). -/
def select_best_enrollment (now : Int) (enrollments : List Enrollment) :
    Option Enrollment :=
  if enrollments.length = 1 then enrollments.head?
  else
    let non_archived := enrollments.filter (fun e => !e.is_archived)
    let candidates := if non_archived.isEmpty then enrollments else non_archived
    select_best_from_sorted (sorted_by_created_desc now candidates)

/-- The contents of the caller's `enrollments` list after
`select_best_enrollment` returns.  Line 172 makes `candidates` an alias
of the input list exactly when `non_archived` is empty, and line 175 then
sorts that list in place; in every other branch only fresh lists are
sorted, so the caller's list is untouched. -/
def select_best_enrollment_post (now : Int) (enrollments : List Enrollment) :
    List Enrollment :=
  if enrollments.length = 1 then enrollments
  else
    let non_archived := enrollments.filter (fun e => !e.is_archived)
    if non_archived.isEmpty then sorted_by_created_desc now enrollments
    else enrollments

/-- The dry-run result dictionary of `remove_duplicate_group`
(lines 213-230 and 317-325): kept id, removed ids, counts. -/
structure RemovalResult where
  kept_id : Nat
  removed_ids : List Nat
  removed_count : Nat
  total_duplicates : Nat
deriving DecidableEq, Repr

/-- The pure (dry-run) content of `remove_duplicate_group` (lines
213-230, 317-325): `None` for groups of size ≤ 1, otherwise the kept
record's id and the ids of the records that would be removed. -/
def remove_duplicate_group (now : Int) (group : List Enrollment) :
    Option RemovalResult :=
  if group.length ≤ 1 then none
  else
    match select_best_enrollment now group with
    | none => none
    | some keep =>
      let removed := group.filter (fun e => decide (e.id ≠ keep.id))
      some ⟨keep.id, removed.map (fun e => e.id), removed.length, group.length⟩

/-! ## Basic facts about the overlap predicate -/

/-- Symmetry of the overlap predicate (helper, shared by several
claim proofs). -/
theorem ranges_overlap_or_adjacent_symm (s1 : Int) (e1 : Option Int)
    (s2 : Int) (e2 : Option Int) :
    ranges_overlap_or_adjacent s1 e1 s2 e2
      = ranges_overlap_or_adjacent s2 e2 s1 e1 := by
  cases e1 <;> cases e2 <;>
    simp [ranges_overlap_or_adjacent, Bool.or_comm, Bool.or_left_comm,
      Bool.or_assoc, Bool.and_comm]

/-- Symmetric form for the record-level predicate. -/
theorem enrollment_overlaps_symm (a b : Enrollment) :
    enrollment_overlaps a b = enrollment_overlaps b a := by
  unfold enrollment_overlaps
  exact ranges_overlap_or_adjacent_symm _ _ _ _

/-- Claim C2. The overlap predicate is symmetric: for all date ranges
(a start date plus an optional end date), swapping the two ranges does
not change the result of `ranges_overlap_or_adjacent`. -/
theorem c2_overlap_symmetric (s1 : Int) (e1 : Option Int)
    (s2 : Int) (e2 : Option Int) :
    ranges_overlap_or_adjacent s1 e1 s2 e2
      = ranges_overlap_or_adjacent s2 e2 s1 e1 :=
  ranges_overlap_or_adjacent_symm s1 e1 s2 e2

/-- Claim C9. The overlap predicate is reflexive on well-formed ranges:
if the end date is absent or at least the start date, a range overlaps
itself. -/
theorem c9_overlap_reflexive (s : Int) (e : Option Int)
    (h : ∀ x, e = some x → s ≤ x) :
    ranges_overlap_or_adjacent s e s e = true := by
  cases e with
  | none => rfl
  | some x =>
    have hx : s ≤ x := h x rfl
    simp [ranges_overlap_or_adjacent, hx]

/-- Witness for C9 at a concrete well-formed range. -/
theorem c9_overlap_reflexive_witness :
    (∀ x, (some 7 : Option Int) = some x → (3 : Int) ≤ x)
      ∧ ranges_overlap_or_adjacent 3 (some 7) 3 (some 7) = true :=
  ⟨by decide, c9_overlap_reflexive 3 (some 7) (by decide)⟩

/-- Claim C10. Clustering the empty input returns no groups. -/
theorem c10_empty_input : find_overlapping_groups [] = [] := rfl

/-! ## Invariants of the clustering fixpoint loop -/

theorem ids_append (a b : List Enrollment) : ids (a ++ b) = ids a ++ ids b :=
  List.map_append _ _ _

theorem mem_ids {l : List Enrollment} {x : Nat} :
    x ∈ ids l ↔ ∃ m ∈ l, m.id = x := by
  simp [ids]

theorem id_mem_ids {l : List Enrollment} {m : Enrollment} (h : m ∈ l) :
    m.id ∈ ids l := mem_ids.mpr ⟨m, h, rfl⟩

theorem ids_perm {l1 l2 : List Enrollment} (h : l1.Perm l2) :
    (ids l1).Perm (ids l2) := h.map (fun e : Enrollment => e.id)

/-- In a list with duplicate-free ids, a record is determined by its id. -/
theorem id_inj_of_nodup {l : List Enrollment} (h : (ids l).Nodup)
    {a b : Enrollment} (ha : a ∈ l) (hb : b ∈ l) (hab : a.id = b.id) :
    a = b :=
  List.inj_on_of_nodup_map h ha hb hab

theorem length_filter_le_mono {α : Type} (q q2 : α → Bool) (l : List α)
    (himp : ∀ x ∈ l, q2 x = true → q x = true) :
    (l.filter q2).length ≤ (l.filter q).length := by
  induction l with
  | nil => simp
  | cons h t ih =>
    have iht : (t.filter q2).length ≤ (t.filter q).length :=
      ih (fun x hx => himp x (List.mem_cons_of_mem h hx))
    by_cases h2 : q2 h = true
    · have h1 : q h = true := himp h (List.mem_cons_self h t) h2
      simp [List.filter_cons, h1, h2]
      omega
    · simp only [Bool.not_eq_true] at h2
      by_cases h1 : q h = true
      · simp [List.filter_cons, h1, h2]
        omega
      · simp only [Bool.not_eq_true] at h1
        simp [List.filter_cons, h1, h2]
        omega

theorem length_filter_lt {α : Type} (q q2 : α → Bool) (l : List α)
    (himp : ∀ x ∈ l, q2 x = true → q x = true)
    (o : α) (ho : o ∈ l) (hoq : q o = true) (hoq2 : q2 o = false) :
    (l.filter q2).length < (l.filter q).length := by
  induction l with
  | nil => cases ho
  | cons h t ih =>
    rcases List.mem_cons.mp ho with rfl | hot
    · have h2 : q2 o = false := hoq2
      have hle : (t.filter q2).length ≤ (t.filter q).length :=
        length_filter_le_mono q q2 t
          (fun x hx => himp x (List.mem_cons_of_mem o hx))
      simp [List.filter_cons, hoq, h2]
      omega
    · have iht : (t.filter q2).length < (t.filter q).length :=
        ih (fun x hx => himp x (List.mem_cons_of_mem h hx)) hot
      by_cases h2 : q2 h = true
      · have h1 : q h = true := himp h (List.mem_cons_self h t) h2
        simp [List.filter_cons, h1, h2]
        omega
      · simp only [Bool.not_eq_true] at h2
        by_cases h1 : q h = true
        · simp [List.filter_cons, h1, h2]
          omega
        · simp only [Bool.not_eq_true] at h1
          simp [List.filter_cons, h1, h2]
          omega

/-- What one absorption step (a pass, or a whole loop run) guarantees:
the group never loses members, its ids are duplicate-free and recorded
as processed, the processed set records exactly the old processed ids
plus the group's ids, and every new member is an unprocessed record of
the scanned list. -/
structure AbsorbSpec (all g : List Enrollment) (p : List Nat)
    (g2 : List Enrollment) (p2 : List Nat) : Prop where
  ids_sub : ∀ x ∈ ids g2, x ∈ p2
  nodup : (ids g2).Nodup
  p_mono : ∀ x ∈ p, x ∈ p2
  p_iff : ∀ x, x ∈ p2 ↔ x ∈ p ∨ x ∈ ids g2
  origin : ∀ m ∈ g2, m ∈ g ∨ (m ∈ all ∧ m.id ∉ p)
  grows : ∃ t, g2 = g ++ t

theorem AbsorbSpec.refl {all g : List Enrollment} {p : List Nat}
    (h1 : ∀ x ∈ ids g, x ∈ p) (h2 : (ids g).Nodup) :
    AbsorbSpec all g p g p where
  ids_sub := h1
  nodup := h2
  p_mono := fun _ hx => hx
  p_iff := fun x => ⟨Or.inl, fun h => h.elim id (fun hx => h1 x hx)⟩
  origin := fun m hm => Or.inl hm
  grows := ⟨[], by simp⟩

theorem AbsorbSpec.trans {all g1 g2 g3 : List Enrollment}
    {p1 p2 p3 : List Nat}
    (hA : AbsorbSpec all g1 p1 g2 p2) (hB : AbsorbSpec all g2 p2 g3 p3) :
    AbsorbSpec all g1 p1 g3 p3 where
  ids_sub := hB.ids_sub
  nodup := hB.nodup
  p_mono := fun x hx => hB.p_mono x (hA.p_mono x hx)
  p_iff := by
    intro x
    have hsub : ∀ y ∈ ids g2, y ∈ ids g3 := by
      obtain ⟨t, ht⟩ := hB.grows
      intro y hy
      rw [ht, ids_append]
      exact List.mem_append_left _ hy
    constructor
    · intro hx
      rcases (hB.p_iff x).mp hx with h | h
      · rcases (hA.p_iff x).mp h with h | h
        · exact Or.inl h
        · exact Or.inr (hsub x h)
      · exact Or.inr h
    · intro hx
      rcases hx with h | h
      · exact hB.p_mono x (hA.p_mono x h)
      · exact (hB.p_iff x).mpr (Or.inr h)
  origin := by
    intro m hm
    rcases hB.origin m hm with h | ⟨hall, hp⟩
    · exact hA.origin m h
    · refine Or.inr ⟨hall, fun hmem => hp (hA.p_mono _ hmem)⟩
  grows := by
    obtain ⟨t1, ht1⟩ := hA.grows
    obtain ⟨t2, ht2⟩ := hB.grows
    exact ⟨t1 ++ t2, by rw [ht2, ht1, List.append_assoc]⟩

theorem AbsorbSpec.weaken_all {all : List Enrollment} {o : Enrollment}
    {g g2 : List Enrollment} {p p2 : List Nat}
    (h : AbsorbSpec all g p g2 p2) : AbsorbSpec (o :: all) g p g2 p2 where
  ids_sub := h.ids_sub
  nodup := h.nodup
  p_mono := h.p_mono
  p_iff := h.p_iff
  origin := fun m hm => (h.origin m hm).imp id
    (fun hh => ⟨List.mem_cons_of_mem o hh.1, hh.2⟩)
  grows := h.grows

theorem absorb_pass_spec :
    ∀ (all g : List Enrollment) (p : List Nat),
    (∀ x ∈ ids g, x ∈ p) → (ids g).Nodup →
    AbsorbSpec all g p (absorb_pass all g p).1 (absorb_pass all g p).2.1
    ∧ ((absorb_pass all g p).2.2 = true →
        ∃ o, o ∈ all ∧ o.id ∉ p ∧ o.id ∈ (absorb_pass all g p).2.1)
    ∧ ((absorb_pass all g p).2.2 = false →
        (absorb_pass all g p).1 = g ∧ (absorb_pass all g p).2.1 = p) := by
  intro all
  induction all with
  | nil =>
    intro g p h1 h2
    refine ⟨AbsorbSpec.refl h1 h2, ?_, ?_⟩
    · intro h; cases h
    · intro _; exact ⟨rfl, rfl⟩
  | cons other rest ih =>
    intro g p h1 h2
    by_cases hmem : other.id ∈ p
    · have heq : absorb_pass (other :: rest) g p = absorb_pass rest g p := by
        simp [absorb_pass, hmem]
      rw [heq]
      obtain ⟨hspec, htrue, hfalse⟩ := ih g p h1 h2
      exact ⟨hspec.weaken_all, fun hf => (htrue hf).imp
        (fun o ho => ⟨List.mem_cons_of_mem other ho.1, ho.2⟩), hfalse⟩
    · by_cases hov : g.any (fun m => enrollment_overlaps m other) = true
      · have heq : absorb_pass (other :: rest) g p =
            ((absorb_pass rest (g ++ [other]) (other.id :: p)).1,
             (absorb_pass rest (g ++ [other]) (other.id :: p)).2.1, true) := by
          simp [absorb_pass, hmem, hov]
        have hids1 : ∀ x ∈ ids (g ++ [other]), x ∈ other.id :: p := by
          intro x hx
          rw [ids_append] at hx
          rcases List.mem_append.mp hx with h | h
          · exact List.mem_cons_of_mem _ (h1 x h)
          · simp only [ids, List.map_cons, List.map_nil,
              List.mem_singleton] at h
            subst h
            exact List.mem_cons_self _ _
        have hids2 : (ids (g ++ [other])).Nodup := by
          rw [ids_append]
          refine List.Nodup.append h2 (by simp [ids]) ?_
          intro x hx hy
          simp only [ids, List.map_cons, List.map_nil,
            List.mem_singleton] at hy
          subst hy
          exact hmem (h1 _ hx)
        obtain ⟨hspec, _htrue, _hfalse⟩ :=
          ih (g ++ [other]) (other.id :: p) hids1 hids2
        have hother_mem : other ∈ (absorb_pass rest (g ++ [other])
            (other.id :: p)).1 := by
          obtain ⟨t, ht⟩ := hspec.grows
          rw [ht]
          exact List.mem_append_left _ (List.mem_append_right _
            (List.mem_singleton.mpr rfl))
        rw [heq]
        refine ⟨⟨hspec.ids_sub, hspec.nodup, ?_, ?_, ?_, ?_⟩, ?_, ?_⟩
        · intro x hx
          exact hspec.p_mono x (List.mem_cons_of_mem _ hx)
        · intro x
          rw [hspec.p_iff x]
          constructor
          · intro h
            rcases h with h | h
            · rcases List.mem_cons.mp h with rfl | h
              · exact Or.inr (id_mem_ids hother_mem)
              · exact Or.inl h
            · exact Or.inr h
          · intro h
            rcases h with h | h
            · exact Or.inl (List.mem_cons_of_mem _ h)
            · exact Or.inr h
        · intro m hm
          rcases hspec.origin m hm with h | ⟨hall, hp⟩
          · rcases List.mem_append.mp h with h | h
            · exact Or.inl h
            · rw [List.mem_singleton] at h
              subst h
              exact Or.inr ⟨List.mem_cons_self _ _, hmem⟩
          · exact Or.inr ⟨List.mem_cons_of_mem _ hall,
              fun hc => hp (List.mem_cons_of_mem _ hc)⟩
        · obtain ⟨t, ht⟩ := hspec.grows
          exact ⟨other :: t, by rw [ht, List.append_assoc]; rfl⟩
        · intro _
          exact ⟨other, List.mem_cons_self _ _, hmem,
            hspec.p_mono _ (List.mem_cons_self _ _)⟩
        · intro h; cases h
      · have hov2 : g.any (fun m => enrollment_overlaps m other) = false :=
          Bool.not_eq_true _ ▸ eq_false_of_ne_true hov
        have heq : absorb_pass (other :: rest) g p = absorb_pass rest g p := by
          simp [absorb_pass, hmem, hov2]
        rw [heq]
        obtain ⟨hspec, htrue, hfalse⟩ := ih g p h1 h2
        exact ⟨hspec.weaken_all, fun hf => (htrue hf).imp
          (fun o ho => ⟨List.mem_cons_of_mem other ho.1, ho.2⟩), hfalse⟩

/-- If a pass reports no change, no unprocessed record of the scanned
list overlaps any member of the group. -/
theorem absorb_pass_closed :
    ∀ (all g : List Enrollment) (p : List Nat),
    (absorb_pass all g p).2.2 = false →
    ∀ o ∈ all, o.id ∉ p → ∀ m ∈ g, enrollment_overlaps m o = false := by
  intro all
  induction all with
  | nil => intro g p _ o ho; cases ho
  | cons other rest ih =>
    intro g p hflag o ho hop m hm
    by_cases hmem : other.id ∈ p
    · have heq : absorb_pass (other :: rest) g p = absorb_pass rest g p := by
        simp [absorb_pass, hmem]
      rw [heq] at hflag
      rcases List.mem_cons.mp ho with rfl | ho2
      · exact absurd hmem hop
      · exact ih g p hflag o ho2 hop m hm
    · by_cases hov : g.any (fun m => enrollment_overlaps m other) = true
      · have heq : (absorb_pass (other :: rest) g p).2.2 = true := by
          simp [absorb_pass, hmem, hov]
        rw [heq] at hflag
        cases hflag
      · have hov2 : g.any (fun m => enrollment_overlaps m other) = false :=
          Bool.not_eq_true _ ▸ eq_false_of_ne_true hov
        have heq : absorb_pass (other :: rest) g p = absorb_pass rest g p := by
          simp [absorb_pass, hmem, hov2]
        rw [heq] at hflag
        rcases List.mem_cons.mp ho with rfl | ho2
        · rcases List.any_eq_false.mp hov2 m hm with h
          simpa using h
        · exact ih g p hflag o ho2 hop m hm

/-- The number of records of `all` whose id is not yet processed; each
changing pass strictly decreases it. -/
def unprocessed_count (all : List Enrollment) (p : List Nat) : Nat :=
  (all.filter (fun x => decide (x.id ∉ p))).length

theorem absorb_loop_spec :
    ∀ (fuel : Nat) (all g : List Enrollment) (p : List Nat),
    (∀ x ∈ ids g, x ∈ p) → (ids g).Nodup →
    AbsorbSpec all g p (absorb_loop fuel all g p).1
      (absorb_loop fuel all g p).2 := by
  intro fuel
  induction fuel with
  | zero => intro all g p h1 h2; exact AbsorbSpec.refl h1 h2
  | succ fuel ih =>
    intro all g p h1 h2
    obtain ⟨hspec, _, _⟩ := absorb_pass_spec all g p h1 h2
    by_cases hflag : (absorb_pass all g p).2.2 = true
    · have heq : absorb_loop (fuel + 1) all g p =
          absorb_loop fuel all (absorb_pass all g p).1
            (absorb_pass all g p).2.1 := by
        simp [absorb_loop, hflag]
      rw [heq]
      exact hspec.trans (ih all _ _ hspec.ids_sub hspec.nodup)
    · have heq : absorb_loop (fuel + 1) all g p =
          ((absorb_pass all g p).1, (absorb_pass all g p).2.1) := by
        simp only [Bool.not_eq_true] at hflag
        simp [absorb_loop, hflag]
      rw [heq]
      exact hspec

/-- With enough fuel, the absorption loop stops only because a final
pass reported no change. -/
theorem absorb_loop_exit :
    ∀ (fuel : Nat) (all g : List Enrollment) (p : List Nat),
    (∀ x ∈ ids g, x ∈ p) → (ids g).Nodup →
    unprocessed_count all p < fuel →
    (absorb_pass all (absorb_loop fuel all g p).1
      (absorb_loop fuel all g p).2).2.2 = false := by
  intro fuel
  induction fuel with
  | zero => intro all g p _ _ hcount; cases hcount
  | succ fuel ih =>
    intro all g p h1 h2 hcount
    obtain ⟨hspec, htrue, hfalse⟩ := absorb_pass_spec all g p h1 h2
    by_cases hflag : (absorb_pass all g p).2.2 = true
    · have heq : absorb_loop (fuel + 1) all g p =
          absorb_loop fuel all (absorb_pass all g p).1
            (absorb_pass all g p).2.1 := by
        simp [absorb_loop, hflag]
      rw [heq]
      obtain ⟨o, ho, hop, hop2⟩ := htrue hflag
      have hlt : unprocessed_count all (absorb_pass all g p).2.1 <
          unprocessed_count all p := by
        refine length_filter_lt _ _ all ?_ o ho ?_ ?_
        · intro x _ hx
          simp only [decide_eq_true_eq] at hx ⊢
          intro hc
          exact hx (hspec.p_mono x.id hc)
        · simp [hop]
        · simp [hop2]
      exact ih all _ _ hspec.ids_sub hspec.nodup (by omega)
    · have hflag2 : (absorb_pass all g p).2.2 = false :=
        Bool.not_eq_true _ ▸ eq_false_of_ne_true hflag
      have heq : absorb_loop (fuel + 1) all g p =
          ((absorb_pass all g p).1, (absorb_pass all g p).2.1) := by
        simp [absorb_loop, hflag2]
      obtain ⟨hg, hp⟩ := hfalse hflag2
      rw [heq]
      simp only [hg, hp]
      exact hflag2

/-- At the fuel actually used by `fog_outer`, the loop's result is
closed: no unprocessed record of the list overlaps any group member. -/
theorem absorb_loop_closed (all g : List Enrollment) (p : List Nat)
    (h1 : ∀ x ∈ ids g, x ∈ p) (h2 : (ids g).Nodup) :
    ∀ o ∈ all, o.id ∉ (absorb_loop (all.length + 1) all g p).2 →
    ∀ m ∈ (absorb_loop (all.length + 1) all g p).1,
      enrollment_overlaps m o = false := by
  have hcount : unprocessed_count all p < all.length + 1 :=
    Nat.lt_succ_of_le (List.length_filter_le _ _)
  exact absorb_pass_closed all _ _
    (absorb_loop_exit (all.length + 1) all g p h1 h2 hcount)

/-- Facts about the outer loop: every emitted member comes from the
scanned list, no id appears in two emitted groups (or twice in one), no
emitted id was processed before, and every emitted group has at least
two members. -/
theorem fog_outer_spec :
    ∀ (all pending : List Enrollment) (p : List Nat),
    (∀ e ∈ pending, e ∈ all) →
    (∀ g ∈ fog_outer all pending p, ∀ m ∈ g, m ∈ all) ∧
    (ids (fog_outer all pending p).flatten).Nodup ∧
    (∀ x ∈ ids (fog_outer all pending p).flatten, x ∉ p) ∧
    (∀ g ∈ fog_outer all pending p, 1 < g.length) := by
  intro all pending
  induction pending with
  | nil =>
    intro p _
    simp [fog_outer, ids]
  | cons e rest ih =>
    intro p hsub
    have hsub2 : ∀ x ∈ rest, x ∈ all :=
      fun x hx => hsub x (List.mem_cons_of_mem e hx)
    by_cases hmem : e.id ∈ p
    · have heq : fog_outer all (e :: rest) p = fog_outer all rest p := by
        simp [fog_outer, hmem]
      rw [heq]
      exact ih p hsub2
    · have hid1 : ∀ x ∈ ids [e], x ∈ e.id :: p := by
        simp [ids]
      have hid2 : (ids [e]).Nodup := by simp [ids]
      have hspec := absorb_loop_spec (all.length + 1) all [e] (e.id :: p)
        hid1 hid2
      set L := absorb_loop (all.length + 1) all [e] (e.id :: p) with hL
      have hmemall : ∀ m ∈ L.1, m ∈ all := by
        intro m hm
        rcases hspec.origin m hm with h | ⟨h, _⟩
        · rw [List.mem_singleton] at h
          subst h
          exact hsub m (List.mem_cons_self _ _)
        · exact h
      have hGp : ∀ x ∈ ids L.1, x ∉ p := by
        intro x hx
        obtain ⟨m, hm, rfl⟩ := mem_ids.mp hx
        rcases hspec.origin m hm with h | ⟨_, h⟩
        · rw [List.mem_singleton] at h
          subst h
          exact hmem
        · exact fun hc => h (List.mem_cons_of_mem _ hc)
      have hPp : ∀ x ∈ p, x ∈ L.2 :=
        fun x hx => hspec.p_mono x (List.mem_cons_of_mem _ hx)
      obtain ⟨ih1, ih2, ih3, ih4⟩ := ih L.2 hsub2
      have hnotP : ∀ x ∈ ids (fog_outer all rest L.2).flatten, x ∉ p :=
        fun x hx hc => ih3 x hx (hPp x hc)
      by_cases hlen : L.1.length > 1
      · have heq : fog_outer all (e :: rest) p =
            L.1 :: fog_outer all rest L.2 := by
          simp [fog_outer, hmem, ← hL, hlen]
        rw [heq]
        refine ⟨?_, ?_, ?_, ?_⟩
        · intro g hg m hm
          rcases List.mem_cons.mp hg with rfl | hg2
          · exact hmemall m hm
          · exact ih1 g hg2 m hm
        · rw [List.flatten_cons, ids_append]
          refine List.Nodup.append hspec.nodup ih2 ?_
          intro x hx hy
          exact ih3 x hy (hspec.ids_sub x hx)
        · intro x hx
          rw [List.flatten_cons, ids_append] at hx
          rcases List.mem_append.mp hx with h | h
          · exact hGp x h
          · exact hnotP x h
        · intro g hg
          rcases List.mem_cons.mp hg with rfl | hg2
          · exact hlen
          · exact ih4 g hg2
      · have heq : fog_outer all (e :: rest) p = fog_outer all rest L.2 := by
          simp [fog_outer, hmem, ← hL, hlen]
        rw [heq]
        exact ⟨ih1, ih2, hnotP, ih4⟩

/-- A list containing two different elements has length at least two. -/
theorem one_lt_length_of_two_mem {l : List Enrollment} {a b : Enrollment}
    (ha : a ∈ l) (hb : b ∈ l) (hne : a ≠ b) : 1 < l.length := by
  match l with
  | [] => cases ha
  | [x] =>
    rw [List.mem_singleton] at ha hb
    exact absurd (ha.trans hb.symm) hne
  | x :: y :: t => simp

/-- Two distinct records that overlap, neither yet processed, always end
up in one common emitted group. -/
theorem fog_outer_reach :
    ∀ (all pending : List Enrollment) (p : List Nat)
      (a b : Enrollment),
    (ids all).Nodup → (∀ e ∈ pending, e ∈ all) →
    (∀ x ∈ all, x.id ∉ p → x ∈ pending) →
    a ∈ all → b ∈ all → a.id ∉ p → b.id ∉ p → a.id ≠ b.id →
    enrollment_overlaps a b = true → enrollment_overlaps b a = true →
    ∃ g ∈ fog_outer all pending p, a ∈ g ∧ b ∈ g := by
  intro all pending
  induction pending with
  | nil =>
    intro p a b _ _ hcov ha _ hap _ _ _ _
    exact absurd (hcov a ha hap) (List.not_mem_nil a)
  | cons e rest ih =>
    intro p a b hnodup hsub hcov ha hb hap hbp hab hov1 hov2
    have hsub2 : ∀ x ∈ rest, x ∈ all :=
      fun x hx => hsub x (List.mem_cons_of_mem e hx)
    by_cases hmem : e.id ∈ p
    · have heq : fog_outer all (e :: rest) p = fog_outer all rest p := by
        simp [fog_outer, hmem]
      rw [heq]
      have hcov2 : ∀ x ∈ all, x.id ∉ p → x ∈ rest := by
        intro x hx hxp
        rcases List.mem_cons.mp (hcov x hx hxp) with rfl | h
        · exact absurd hmem hxp
        · exact h
      exact ih p a b hnodup hsub2 hcov2 ha hb hap hbp hab hov1 hov2
    · have hid1 : ∀ x ∈ ids [e], x ∈ e.id :: p := by simp [ids]
      have hid2 : (ids [e]).Nodup := by simp [ids]
      have hspec := absorb_loop_spec (all.length + 1) all [e] (e.id :: p)
        hid1 hid2
      have hclosed := absorb_loop_closed all [e] (e.id :: p) hid1 hid2
      set L := absorb_loop (all.length + 1) all [e] (e.id :: p) with hL
      have hmemall : ∀ m ∈ L.1, m ∈ all := by
        intro m hm
        rcases hspec.origin m hm with h | ⟨h, _⟩
        · rw [List.mem_singleton] at h
          subst h
          exact hsub m (List.mem_cons_self _ _)
        · exact h
      -- a record whose id was newly processed is itself in the group
      have hinG : ∀ x, x ∈ all → x.id ∉ p → x.id ∈ L.2 → x ∈ L.1 := by
        intro x hx hxp hx2
        rcases (hspec.p_iff x.id).mp hx2 with h | h
        · rcases List.mem_cons.mp h with h | h
          · have hxe : x = e :=
              id_inj_of_nodup hnodup hx (hsub e (List.mem_cons_self _ _)) h
            subst hxe
            obtain ⟨t, ht⟩ := hspec.grows
            rw [ht]
            exact List.mem_append_left _ (List.mem_singleton.mpr rfl)
          · exact absurd h hxp
        · obtain ⟨m, hm, hmx⟩ := mem_ids.mp h
          have : m = x := id_inj_of_nodup hnodup (hmemall m hm) hx hmx
          subst this
          exact hm
      by_cases haP : a.id ∈ L.2
      · by_cases hbP : b.id ∈ L.2
        · -- both absorbed: the current group is emitted and contains both
          have haG : a ∈ L.1 := hinG a ha hap haP
          have hbG : b ∈ L.1 := hinG b hb hbp hbP
          have hne : a ≠ b := fun h => hab (h ▸ rfl)
          have hlen : L.1.length > 1 := one_lt_length_of_two_mem haG hbG hne
          have heq : fog_outer all (e :: rest) p =
              L.1 :: fog_outer all rest L.2 := by
            simp [fog_outer, hmem, ← hL, hlen]
          rw [heq]
          exact ⟨L.1, List.mem_cons_self _ _, haG, hbG⟩
        · -- a absorbed, b not: contradicts closedness
          have haG : a ∈ L.1 := hinG a ha hap haP
          have := hclosed b hb hbP a haG
          rw [hov1] at this
          cases this
      · by_cases hbP : b.id ∈ L.2
        · have hbG : b ∈ L.1 := hinG b hb hbp hbP
          have := hclosed a ha haP b hbG
          rw [hov2] at this
          cases this
        · -- neither absorbed: recurse
          have hcov2 : ∀ x ∈ all, x.id ∉ L.2 → x ∈ rest := by
            intro x hx hxP
            have hxp : x.id ∉ p :=
              fun hc => hxP (hspec.p_mono x.id (List.mem_cons_of_mem _ hc))
            rcases List.mem_cons.mp (hcov x hx hxp) with rfl | h
            · exact absurd (hspec.p_mono x.id (List.mem_cons_self _ _)) hxP
            · exact h
          obtain ⟨g, hg, hag, hbg⟩ :=
            ih L.2 a b hnodup hsub2 hcov2 ha hb haP hbP hab hov1 hov2
          by_cases hlen : L.1.length > 1
          · have heq : fog_outer all (e :: rest) p =
                L.1 :: fog_outer all rest L.2 := by
              simp [fog_outer, hmem, ← hL, hlen]
            rw [heq]
            exact ⟨g, List.mem_cons_of_mem _ hg, hag, hbg⟩
          · have heq : fog_outer all (e :: rest) p =
                fog_outer all rest L.2 := by
              simp [fog_outer, hmem, ← hL, hlen]
            rw [heq]
            exact ⟨g, hg, hag, hbg⟩

/-- When the flattened groups have duplicate-free ids, a record lies in
at most one group. -/
theorem mem_flatten_unique :
    ∀ (gs : List (List Enrollment)),
    (ids gs.flatten).Nodup →
    ∀ g1 ∈ gs, ∀ g2 ∈ gs, ∀ x : Enrollment, x ∈ g1 → x ∈ g2 → g1 = g2 := by
  intro gs
  induction gs with
  | nil => intro _ g1 hg1; cases hg1
  | cons g t ih =>
    intro hnodup g1 hg1 g2 hg2 x hx1 hx2
    rw [List.flatten_cons, ids_append, List.nodup_append] at hnodup
    obtain ⟨hg, ht, hdisj⟩ := hnodup
    rcases List.mem_cons.mp hg1 with rfl | hg1t
    · rcases List.mem_cons.mp hg2 with rfl | hg2t
      · rfl
      · exact absurd (mem_ids.mpr ⟨x, List.mem_flatten.mpr ⟨g2, hg2t, hx2⟩, rfl⟩)
          (hdisj (id_mem_ids hx1))
    · rcases List.mem_cons.mp hg2 with rfl | hg2t
      · exact absurd (mem_ids.mpr ⟨x, List.mem_flatten.mpr ⟨g1, hg1t, hx1⟩, rfl⟩)
          (hdisj (id_mem_ids hx2))
      · exact ih ht g1 hg1t g2 hg2t x hx1 hx2

/-- Claim C4. Clustering produces a partition: for an input with distinct
ids, the flattened groups together with the records dropped as
singletons form a permutation of the input, and every input record is
counted exactly once — either in exactly one returned group or among
the dropped records. -/
theorem c4_clustering_partition (rs : List Enrollment)
    (hnodup : (ids rs).Nodup) :
    ((find_overlapping_groups rs).flatten ++
        rs.filter (fun r2 => !((find_overlapping_groups rs).flatten.any
          (fun m => decide (m.id = r2.id))))).Perm rs
    ∧ ∀ r ∈ rs,
      ((find_overlapping_groups rs).flatten.count r = 1 ∧
        (rs.filter (fun r2 => !((find_overlapping_groups rs).flatten.any
          (fun m => decide (m.id = r2.id))))).count r = 0)
      ∨ ((find_overlapping_groups rs).flatten.count r = 0 ∧
        (rs.filter (fun r2 => !((find_overlapping_groups rs).flatten.any
          (fun m => decide (m.id = r2.id))))).count r = 1) := by
  by_cases hrs : rs = []
  · subst hrs
    exact ⟨by simp [find_overlapping_groups], fun r hr => absurd hr
      (List.not_mem_nil r)⟩
  · have hne : rs.isEmpty = false := by
      simp [List.isEmpty_iff, hrs]
    have hfog : find_overlapping_groups rs =
        fog_outer (sorted_by_start rs) (sorted_by_start rs) [] := by
      simp [find_overlapping_groups, hne]
    rw [hfog]
    set s := sorted_by_start rs with hs
    have hperm : s.Perm rs := List.perm_insertionSort _ rs
    have hnodup_s : (ids s).Nodup := (ids_perm hperm).symm.nodup hnodup
    obtain ⟨hmemall, hnodupJ, _, _⟩ :=
      fog_outer_spec s s [] (fun e he => he)
    set members := (fog_outer s s []).flatten with hmdef
    have hmem_rs : ∀ m ∈ members, m ∈ rs := by
      intro m hmm
      obtain ⟨g, hg, hmg⟩ := List.mem_flatten.mp hmm
      exact hperm.mem_iff.mp (hmemall g hg m hmg)
    have hrs_nodup : rs.Nodup := List.Nodup.of_map _ hnodup
    have hmembers_nodup : members.Nodup := List.Nodup.of_map _ hnodupJ
    set dropped := rs.filter (fun r2 => !(members.any
      (fun m => decide (m.id = r2.id)))) with hddef
    have hdr : ∀ r, r ∈ dropped ↔ r ∈ rs ∧
        members.any (fun m => decide (m.id = r.id)) = false := by
      intro r
      rw [hddef, List.mem_filter]
      simp
    have hkey : ∀ r ∈ rs, (members.count r = 1 ∧ dropped.count r = 0)
        ∨ (members.count r = 0 ∧ dropped.count r = 1) := by
      intro r hr
      by_cases hrm : r ∈ members
      · left
        refine ⟨List.count_eq_one_of_mem hmembers_nodup hrm, ?_⟩
        refine List.count_eq_zero_of_not_mem ?_
        intro hc
        have hfalse := ((hdr r).mp hc).2
        rw [List.any_eq_false] at hfalse
        exact hfalse r hrm (by simp)
      · right
        have hany : members.any (fun m => decide (m.id = r.id)) = false := by
          rw [List.any_eq_false]
          intro m hmm hdec
          simp only [decide_eq_true_eq] at hdec
          have hmr : m = r := id_inj_of_nodup hnodup (hmem_rs m hmm) hr hdec
          exact hrm (hmr ▸ hmm)
        refine ⟨List.count_eq_zero_of_not_mem hrm, ?_⟩
        exact List.count_eq_one_of_mem (List.Nodup.filter _ hrs_nodup)
          ((hdr r).mpr ⟨hr, hany⟩)
    refine ⟨?_, hkey⟩
    rw [List.perm_iff_count]
    intro x
    rw [List.count_append]
    by_cases hx : x ∈ rs
    · rcases hkey x hx with ⟨h1, h2⟩ | ⟨h1, h2⟩ <;>
        rw [h1, h2, List.count_eq_one_of_mem hrs_nodup hx]
    · have h1 : members.count x = 0 :=
        List.count_eq_zero_of_not_mem (fun hc => hx (hmem_rs x hc))
      have h2 : dropped.count x = 0 :=
        List.count_eq_zero_of_not_mem (fun hc => hx ((hdr x).mp hc).1)
      rw [h1, h2, List.count_eq_zero_of_not_mem hx]

/-- Claim C5. Clustering is transitively closed: three distinct-id input
records where A overlaps B and B overlaps C (even when A does not
overlap C directly) all land in one returned group. -/
theorem c5_transitive_closure (rs : List Enrollment)
    (hnodup : (ids rs).Nodup) (A B C : Enrollment)
    (hA : A ∈ rs) (hB : B ∈ rs) (hC : C ∈ rs)
    (hab : A.id ≠ B.id) (hbc : B.id ≠ C.id) (hac : A.id ≠ C.id)
    (hovAB : enrollment_overlaps A B = true)
    (hovBC : enrollment_overlaps B C = true)
    (hnovAC : enrollment_overlaps A C = false) :
    ∃ g ∈ find_overlapping_groups rs, A ∈ g ∧ B ∈ g ∧ C ∈ g := by
  have hrs : rs ≠ [] := fun h => absurd (h ▸ hA) (List.not_mem_nil A)
  have hne : rs.isEmpty = false := by
    simp [List.isEmpty_iff, hrs]
  have hfog : find_overlapping_groups rs =
      fog_outer (sorted_by_start rs) (sorted_by_start rs) [] := by
    simp [find_overlapping_groups, hne]
  rw [hfog]
  set s := sorted_by_start rs with hs
  have hperm : s.Perm rs := List.perm_insertionSort _ rs
  have hnodup_s : (ids s).Nodup := (ids_perm hperm).symm.nodup hnodup
  have hAs : A ∈ s := hperm.mem_iff.mpr hA
  have hBs : B ∈ s := hperm.mem_iff.mpr hB
  have hCs : C ∈ s := hperm.mem_iff.mpr hC
  have hovBA : enrollment_overlaps B A = true :=
    (enrollment_overlaps_symm A B) ▸ hovAB
  have hovCB : enrollment_overlaps C B = true :=
    (enrollment_overlaps_symm B C) ▸ hovBC
  obtain ⟨g1, hg1, hAg1, hBg1⟩ := fog_outer_reach s s [] A B hnodup_s
    (fun e he => he) (fun x hx _ => hx) hAs hBs (List.not_mem_nil _)
    (List.not_mem_nil _) hab hovAB hovBA
  obtain ⟨g2, hg2, hBg2, hCg2⟩ := fog_outer_reach s s [] B C hnodup_s
    (fun e he => he) (fun x hx _ => hx) hBs hCs (List.not_mem_nil _)
    (List.not_mem_nil _) hbc hovBC hovCB
  obtain ⟨_, hnodupJ, _, _⟩ := fog_outer_spec s s [] (fun e he => he)
  have hgeq : g1 = g2 :=
    mem_flatten_unique (fog_outer s s []) hnodupJ g1 hg1 g2 hg2 B hBg1 hBg2
  exact ⟨g1, hg1, hAg1, hBg1, hgeq ▸ hCg2⟩

/-- Witness for C5 at a concrete chain A-B-C. -/
theorem c5_transitive_closure_witness :
    ((ids [⟨1, 0, some 5, false, none, none, none, none, none⟩,
          ⟨2, 4, some 10, false, none, none, none, none, none⟩,
          ⟨3, 9, some 15, false, none, none, none, none, none⟩]).Nodup)
    ∧ ∃ g ∈ find_overlapping_groups
        [⟨1, 0, some 5, false, none, none, none, none, none⟩,
         ⟨2, 4, some 10, false, none, none, none, none, none⟩,
         ⟨3, 9, some 15, false, none, none, none, none, none⟩],
      (⟨1, 0, some 5, false, none, none, none, none, none⟩ : Enrollment) ∈ g
      ∧ (⟨2, 4, some 10, false, none, none, none, none, none⟩ : Enrollment) ∈ g
      ∧ (⟨3, 9, some 15, false, none, none, none, none, none⟩ : Enrollment) ∈ g :=
  ⟨by decide, c5_transitive_closure _ (by decide) _ _ _
    (by decide) (by decide) (by decide)
    (by decide) (by decide) (by decide)
    (by decide) (by decide) (by decide)⟩

/-- Sample input for the C4 witness: two overlapping records and one
far-away singleton. -/
def c4sample : List Enrollment :=
  [⟨1, 0, some 5, false, none, none, none, none, none⟩,
   ⟨2, 3, some 8, false, none, none, none, none, none⟩,
   ⟨3, 100, some 110, false, none, none, none, none, none⟩]

/-- Witness for C4 at a concrete input. -/
theorem c4_clustering_partition_witness :
    (ids c4sample).Nodup ∧
    (((find_overlapping_groups c4sample).flatten ++
        c4sample.filter (fun r2 => !((find_overlapping_groups c4sample).flatten.any
          (fun m => decide (m.id = r2.id))))).Perm c4sample
    ∧ ∀ r ∈ c4sample,
      ((find_overlapping_groups c4sample).flatten.count r = 1 ∧
        (c4sample.filter (fun r2 => !((find_overlapping_groups c4sample).flatten.any
          (fun m => decide (m.id = r2.id))))).count r = 0)
      ∨ ((find_overlapping_groups c4sample).flatten.count r = 0 ∧
        (c4sample.filter (fun r2 => !((find_overlapping_groups c4sample).flatten.any
          (fun m => decide (m.id = r2.id))))).count r = 1)) :=
  ⟨by decide, c4_clustering_partition c4sample (by decide)⟩

/-- The first member of each group built by the outer loop is the group
seed, taken from a start-sorted pending list, so it carries the minimal
start date of its group. -/
theorem fog_outer_first_min :
    ∀ (all pending : List Enrollment) (p : List Nat),
    List.Sorted (fun x y : Enrollment => x.start_date ≤ y.start_date) pending →
    (∀ x ∈ all, x.id ∉ p → x ∈ pending) →
    ∀ g ∈ fog_outer all pending p, ∀ f, g.head? = some f →
    ∀ m ∈ g, f.start_date ≤ m.start_date := by
  intro all pending
  induction pending with
  | nil =>
    intro p _ _ g hg
    simp [fog_outer] at hg
  | cons e rest ih =>
    intro p hsorted hcov g hg f hf m hm
    obtain ⟨hhead, htail⟩ := List.sorted_cons.mp hsorted
    by_cases hmem : e.id ∈ p
    · have heq : fog_outer all (e :: rest) p = fog_outer all rest p := by
        simp [fog_outer, hmem]
      rw [heq] at hg
      have hcov2 : ∀ x ∈ all, x.id ∉ p → x ∈ rest := by
        intro x hx hxp
        rcases List.mem_cons.mp (hcov x hx hxp) with rfl | h
        · exact absurd hmem hxp
        · exact h
      exact ih p htail hcov2 g hg f hf m hm
    · have hid1 : ∀ x ∈ ids [e], x ∈ e.id :: p := by simp [ids]
      have hid2 : (ids [e]).Nodup := by simp [ids]
      have hspec := absorb_loop_spec (all.length + 1) all [e] (e.id :: p)
        hid1 hid2
      set L := absorb_loop (all.length + 1) all [e] (e.id :: p) with hL
      have hcov2 : ∀ x ∈ all, x.id ∉ L.2 → x ∈ rest := by
        intro x hx hxP
        have hxp : x.id ∉ p :=
          fun hc => hxP (hspec.p_mono x.id (List.mem_cons_of_mem _ hc))
        rcases List.mem_cons.mp (hcov x hx hxp) with rfl | h
        · exact absurd (hspec.p_mono x.id (List.mem_cons_self _ _)) hxP
        · exact h
      have hmin : ∀ m2 ∈ L.1, e.start_date ≤ m2.start_date := by
        intro m2 hm2
        rcases hspec.origin m2 hm2 with h | ⟨hall, hp⟩
        · rw [List.mem_singleton] at h
          subst h
          exact le_refl _
        · have hm2p : m2.id ∉ p :=
            fun hc => hp (List.mem_cons_of_mem _ hc)
          rcases List.mem_cons.mp (hcov m2 hall hm2p) with rfl | h2
          · exact absurd (List.mem_cons_self m2.id p) hp
          · exact hhead m2 h2
      by_cases hlen : L.1.length > 1
      · have heq : fog_outer all (e :: rest) p =
            L.1 :: fog_outer all rest L.2 := by
          simp [fog_outer, hmem, ← hL, hlen]
        rw [heq] at hg
        rcases List.mem_cons.mp hg with rfl | hg2
        · obtain ⟨t, ht⟩ := hspec.grows
          rw [ht] at hf
          simp only [List.singleton_append, List.head?_cons,
            Option.some.injEq] at hf
          subst hf
          exact hmin m hm
        · exact ih L.2 htail hcov2 g hg2 f hf m hm
      · have heq : fog_outer all (e :: rest) p = fog_outer all rest L.2 := by
          simp [fog_outer, hmem, ← hL, hlen]
        rw [heq] at hg
        exact ih L.2 htail hcov2 g hg f hf m hm

/-- Counterexample input for C6: a bounded seed `[0,9]`, an open-ended
range `[10,∞)` listed before `[10,100]`, and `[15,20]`.  The open-ended
record is skipped on the first absorption pass (it overlaps nothing yet)
and only absorbed on the second pass, after `[15,20]`, so the group is
not sorted by start date. -/
def c6seed : Enrollment := ⟨1, 0, some 9, false, none, none, none, none, none⟩

def c6open : Enrollment := ⟨2, 10, none, false, none, none, none, none, none⟩

def c6mid : Enrollment := ⟨3, 10, some 100, false, none, none, none, none, none⟩

def c6late : Enrollment := ⟨4, 15, some 20, false, none, none, none, none, none⟩

/-- Claim C6, counterexample. The members of a returned group are not, in
general, in ascending order of start date: on the input above the single
returned group is `[seed, mid, late, open]` whose consecutive pair
`(late, open)` has start dates 15 > 10. -/
theorem c6_group_order_counterexample :
    ¬ (∀ g ∈ find_overlapping_groups [c6seed, c6open, c6mid, c6late],
        List.Chain' (fun a b : Enrollment => a.start_date ≤ b.start_date) g) := by
  intro h
  have hg : [c6seed, c6mid, c6late, c6open] ∈
      find_overlapping_groups [c6seed, c6open, c6mid, c6late] := by decide
  have hchain := h _ hg
  simp only [List.chain'_cons, List.chain'_singleton, and_true] at hchain
  exact absurd hchain.2.2 (by decide)

/-- Claim C6, amended. What does hold of the output ordering: the first
member of every returned group has a start date less than or equal to
that of every member of the group (the seed is drawn from the
start-sorted list before any of its group mates); full ascending order
of the remaining members is not guaranteed. -/
theorem c6_first_member_minimal (rs : List Enrollment)
    (g : List Enrollment) (hg : g ∈ find_overlapping_groups rs)
    (f : Enrollment) (hf : g.head? = some f) :
    ∀ m ∈ g, f.start_date ≤ m.start_date := by
  by_cases hrs : rs = []
  · subst hrs
    exact absurd hg (by simp [find_overlapping_groups])
  · have hne : rs.isEmpty = false := by
      simp [List.isEmpty_iff, hrs]
    have hfog : find_overlapping_groups rs =
        fog_outer (sorted_by_start rs) (sorted_by_start rs) [] := by
      simp [find_overlapping_groups, hne]
    rw [hfog] at hg
    have hsorted : List.Sorted (fun x y : Enrollment =>
        x.start_date ≤ y.start_date) (sorted_by_start rs) := by
      haveI : IsTotal Enrollment (fun a b : Enrollment =>
          a.start_date ≤ b.start_date) := ⟨fun a b => Int.le_total _ _⟩
      haveI : IsTrans Enrollment (fun a b : Enrollment =>
          a.start_date ≤ b.start_date) :=
        ⟨fun a b c h1 h2 => Int.le_trans h1 h2⟩
      exact List.sorted_insertionSort _ rs
    exact fog_outer_first_min (sorted_by_start rs) (sorted_by_start rs) []
      hsorted (fun x hx _ => hx) g hg f hf

/-- Witness for the amended C6 on the counterexample input: the group
head `c6seed` (start 0) is indeed minimal, for instance against the
out-of-order member `c6open`. -/
theorem c6_first_member_minimal_witness :
    ([c6seed, c6mid, c6late, c6open] ∈
        find_overlapping_groups [c6seed, c6open, c6mid, c6late])
    ∧ c6seed.start_date ≤ c6open.start_date :=
  ⟨by decide,
   c6_first_member_minimal [c6seed, c6open, c6mid, c6late]
     [c6seed, c6mid, c6late, c6open] (by decide) c6seed (by decide)
     c6open (by decide)⟩

/-! ## Invariants of the resolver -/

/-- Invariants of the Priority-3 fold: the tracked record stays in the
scanned list, its `created_at` never changes, the tracked score is the
tracked record's score and never decreases, and every scanned candidate
whose `created_at` matches is dominated by the final score. -/
theorem tier3_fold_spec (sorted : List Enrollment) :
    ∀ (cs : List Enrollment) (st : Enrollment × Nat),
    (∀ c ∈ cs, c ∈ sorted) →
    st.1 ∈ sorted → st.2 = completeness_score st.1 →
    (cs.foldl tier3_step st).1 ∈ sorted ∧
    (cs.foldl tier3_step st).1.created_at = st.1.created_at ∧
    (cs.foldl tier3_step st).2 =
      completeness_score (cs.foldl tier3_step st).1 ∧
    st.2 ≤ (cs.foldl tier3_step st).2 ∧
    (∀ c ∈ cs, c.created_at = st.1.created_at →
      completeness_score c ≤ (cs.foldl tier3_step st).2) := by
  intro cs
  induction cs with
  | nil =>
    intro st _ h1 h2
    exact ⟨h1, rfl, h2, le_refl _, fun c hc => absurd hc (List.not_mem_nil c)⟩
  | cons c cs ih =>
    intro st hsub h1 h2
    have hcs : ∀ x ∈ cs, x ∈ sorted :=
      fun x hx => hsub x (List.mem_cons_of_mem c hx)
    have hstep : (c :: cs).foldl tier3_step st
        = cs.foldl tier3_step (tier3_step st c) := rfl
    rw [hstep]
    by_cases hcr : c.created_at = st.1.created_at
    · by_cases hsc : completeness_score c > st.2
      · have hs : tier3_step st c = (c, completeness_score c) := by
          simp [tier3_step, hcr, hsc]
        rw [hs]
        obtain ⟨i1, i2, i3, i4, i5⟩ := ih (c, completeness_score c)
          hcs (hsub c (List.mem_cons_self c cs)) rfl
        refine ⟨i1, by rw [i2]; exact hcr, i3,
          le_trans (le_of_lt hsc) i4, ?_⟩
        intro x hx hxc
        rcases List.mem_cons.mp hx with rfl | hx2
        · exact i4
        · exact i5 x hx2 (hxc.trans hcr.symm)
      · have hs : tier3_step st c = st := by
          simp [tier3_step, hcr, hsc]
        rw [hs]
        obtain ⟨i1, i2, i3, i4, i5⟩ := ih st hcs h1 h2
        refine ⟨i1, i2, i3, i4, ?_⟩
        intro x hx hxc
        rcases List.mem_cons.mp hx with rfl | hx2
        · exact le_trans (Nat.le_of_not_lt hsc) i4
        · exact i5 x hx2 hxc
    · have hs : tier3_step st c = st := by
        simp [tier3_step, hcr]
      rw [hs]
      obtain ⟨i1, i2, i3, i4, i5⟩ := ih st hcs h1 h2
      refine ⟨i1, i2, i3, i4, ?_⟩
      intro x hx hxc
      rcases List.mem_cons.mp hx with rfl | hx2
      · exact absurd hxc hcr
      · exact i5 x hx2 hxc

/-- The four-tier optimality enjoyed by every resolver result: membership,
the non-archived preference, and dominance in creation key, completeness
score and earliest start date within the successively tied subsets. -/
def BestChoice (now : Int) (l : List Enrollment) (r : Enrollment) : Prop :=
  r ∈ l ∧
  ((∃ e ∈ l, e.is_archived = false) → r.is_archived = false) ∧
  (∀ e ∈ l, e.is_archived = r.is_archived → ckey now e ≤ ckey now r) ∧
  (∀ e ∈ l, e.is_archived = r.is_archived → e.created_at = r.created_at →
    completeness_score e ≤ completeness_score r) ∧
  (∀ e ∈ l, e.is_archived = r.is_archived → e.created_at = r.created_at →
    completeness_score e = completeness_score r →
    r.start_date ≤ e.start_date)

/-- The core of the resolver: on a descending-sorted non-empty candidate
list, priorities 2-4 return a record that dominates every candidate
tier by tier. -/
theorem select_best_from_sorted_spec (now : Int) (sorted : List Enrollment)
    (hsorted : List.Sorted
      (fun a b : Enrollment => ckey now b ≤ ckey now a) sorted)
    (hne : sorted ≠ []) :
    ∃ r, select_best_from_sorted sorted = some r ∧
      r ∈ sorted ∧
      (∀ e ∈ sorted, ckey now e ≤ ckey now r) ∧
      (∀ e ∈ sorted, e.created_at = r.created_at →
        completeness_score e ≤ completeness_score r) ∧
      (∀ e ∈ sorted, e.created_at = r.created_at →
        completeness_score e = completeness_score r →
        r.start_date ≤ e.start_date) := by
  obtain ⟨mr0, rest, rfl⟩ := List.exists_cons_of_ne_nil hne
  obtain ⟨hdom, _⟩ := List.sorted_cons.mp hsorted
  obtain ⟨f1, f2, f3, f4, f5⟩ :=
    tier3_fold_spec (mr0 :: rest) (mr0 :: rest)
      (mr0, completeness_score mr0) (fun c hc => hc)
      (List.mem_cons_self _ _) rfl
  set mrb := (mr0 :: rest).foldl tier3_step
    (mr0, completeness_score mr0) with hmrb
  set same := (mr0 :: rest).filter
    (fun e => decide (e.created_at = mrb.1.created_at)
      && decide (completeness_score e = mrb.2)) with hsame
  have hmrb_in : mrb.1 ∈ same := by
    rw [hsame, List.mem_filter]
    exact ⟨f1, by simp [f3]⟩
  have hsame_ne : sorted_by_start same ≠ [] := by
    intro h
    have hp := List.perm_insertionSort
      (fun a b : Enrollment => a.start_date ≤ b.start_date) same
    rw [show List.insertionSort
        (fun a b : Enrollment => a.start_date ≤ b.start_date) same
      = sorted_by_start same from rfl, h] at hp
    rw [hp.symm.eq_nil] at hmrb_in
    exact List.not_mem_nil _ hmrb_in
  obtain ⟨s0, stail, hss⟩ := List.exists_cons_of_ne_nil hsame_ne
  have hsperm : (sorted_by_start same).Perm same :=
    List.perm_insertionSort _ same
  have hs0_same : s0 ∈ same :=
    hsperm.mem_iff.mp (hss ▸ List.mem_cons_self s0 stail)
  obtain ⟨hs0_mem, hs0_pred⟩ := List.mem_filter.mp (hsame ▸ hs0_same)
  have hs0_created : s0.created_at = mrb.1.created_at := by
    have := hs0_pred
    simp only [Bool.and_eq_true, decide_eq_true_eq] at this
    exact this.1
  have hs0_score : completeness_score s0 = mrb.2 := by
    have := hs0_pred
    simp only [Bool.and_eq_true, decide_eq_true_eq] at this
    exact this.2
  have hsel : select_best_from_sorted (mr0 :: rest) = some s0 := by
    simp only [select_best_from_sorted]
    rw [← hmrb, ← hsame, hss]
  have hcr0 : s0.created_at = mr0.created_at := hs0_created.trans f2
  have hck0 : ckey now s0 = ckey now mr0 := by
    simp [ckey, hcr0]
  have hstart_sorted : List.Sorted
      (fun a b : Enrollment => a.start_date ≤ b.start_date)
      (sorted_by_start same) := by
    haveI : IsTotal Enrollment
        (fun a b : Enrollment => a.start_date ≤ b.start_date) :=
      ⟨fun a b => Int.le_total _ _⟩
    haveI : IsTrans Enrollment
        (fun a b : Enrollment => a.start_date ≤ b.start_date) :=
      ⟨fun a b c h1 h2 => Int.le_trans h1 h2⟩
    exact List.sorted_insertionSort _ same
  have hstart_dom : ∀ e ∈ same, s0.start_date ≤ e.start_date := by
    intro e he
    have he2 : e ∈ s0 :: stail := hss ▸ hsperm.mem_iff.mpr he
    rcases List.mem_cons.mp he2 with rfl | he3
    · exact le_refl _
    · exact (List.sorted_cons.mp (hss ▸ hstart_sorted)).1 e he3
  refine ⟨s0, hsel, hs0_mem, ?_, ?_, ?_⟩
  · intro e he
    rw [hck0]
    rcases List.mem_cons.mp he with rfl | he2
    · exact le_refl _
    · exact hdom e he2
  · intro e he hec
    rw [hs0_score]
    exact f5 e he ((hec.trans hs0_created).trans f2)
  · intro e he hec hes
    refine hstart_dom e ?_
    rw [hsame, List.mem_filter]
    refine ⟨he, ?_⟩
    simp only [Bool.and_eq_true, decide_eq_true_eq]
    exact ⟨hec.trans hs0_created, hes.trans hs0_score⟩

/-- On a cluster of two or more records the resolver produces a result,
and the result is a four-tier optimum. -/
theorem select_best_some (now : Int) (l : List Enrollment)
    (hlen : 2 ≤ l.length) :
    ∃ r, select_best_enrollment now l = some r ∧ BestChoice now l r := by
  have hlen1 : l.length ≠ 1 := by omega
  have hlnil : l ≠ [] := by
    intro h
    rw [h] at hlen
    simp at hlen
  set na := l.filter (fun e => !e.is_archived) with hna
  set candidates : List Enrollment := if na.isEmpty then l else na
    with hcand
  have hcand_sub : ∀ e ∈ candidates, e ∈ l := by
    intro e he
    rw [hcand] at he
    by_cases hemp : na.isEmpty
    · rw [if_pos hemp] at he
      exact he
    · rw [if_neg hemp] at he
      exact (List.mem_filter.mp (hna ▸ he)).1
  have hcand_ne : candidates ≠ [] := by
    rw [hcand]
    by_cases hemp : na.isEmpty
    · rw [if_pos hemp]
      exact hlnil
    · rw [if_neg hemp]
      intro h
      rw [h] at hemp
      exact hemp rfl
  have hclass : ∀ r ∈ candidates, ∀ e ∈ l,
      e.is_archived = r.is_archived → e ∈ candidates := by
    intro r hr e he harch
    rw [hcand] at hr ⊢
    by_cases hemp : na.isEmpty
    · rw [if_pos hemp] at hr ⊢
      exact he
    · rw [if_neg hemp] at hr ⊢
      have hrb := (List.mem_filter.mp (hna ▸ hr)).2
      simp only [Bool.not_eq_true'] at hrb
      rw [hna, List.mem_filter]
      refine ⟨he, ?_⟩
      simp only [Bool.not_eq_true']
      rw [harch, hrb]
  have harchcl : ∀ r ∈ candidates, (∃ e ∈ l, e.is_archived = false) →
      r.is_archived = false := by
    intro r hr hex
    rw [hcand] at hr
    by_cases hemp : na.isEmpty
    · exfalso
      obtain ⟨e, he, hef⟩ := hex
      have hena : e ∈ na := by
        rw [hna, List.mem_filter]
        exact ⟨he, by rw [hef]; rfl⟩
      rw [List.isEmpty_iff] at hemp
      rw [hemp] at hena
      exact List.not_mem_nil e hena
    · rw [if_neg hemp] at hr
      have hrb := (List.mem_filter.mp (hna ▸ hr)).2
      simpa using hrb
  have hsorted : List.Sorted (fun a b : Enrollment =>
      ckey now b ≤ ckey now a) (sorted_by_created_desc now candidates) := by
    haveI : IsTotal Enrollment
        (fun a b : Enrollment => ckey now b ≤ ckey now a) :=
      ⟨fun a b => Int.le_total _ _⟩
    haveI : IsTrans Enrollment
        (fun a b : Enrollment => ckey now b ≤ ckey now a) :=
      ⟨fun a b c h1 h2 => Int.le_trans h2 h1⟩
    exact List.sorted_insertionSort _ candidates
  have hperm : (sorted_by_created_desc now candidates).Perm candidates :=
    List.perm_insertionSort _ candidates
  have hsne : sorted_by_created_desc now candidates ≠ [] := by
    intro h
    exact hcand_ne ((h ▸ hperm).symm.eq_nil)
  obtain ⟨r, hsel, hrmem, hcr, hsc, hst⟩ :=
    select_best_from_sorted_spec now (sorted_by_created_desc now candidates)
      hsorted hsne
  have hrc : r ∈ candidates := hperm.mem_iff.mp hrmem
  refine ⟨r, ?_, hcand_sub r hrc, harchcl r hrc, ?_, ?_, ?_⟩
  · simp only [select_best_enrollment, if_neg hlen1]
    rw [← hna, ← hcand]
    exact hsel
  · intro e he harch
    exact hcr e (hperm.mem_iff.mpr (hclass r hrc e he harch))
  · intro e he harch hec
    exact hsc e (hperm.mem_iff.mpr (hclass r hrc e he harch)) hec
  · intro e he harch hec hes
    exact hst e (hperm.mem_iff.mpr (hclass r hrc e he harch)) hec hes

/-- Optimality transfers along permutations of the cluster. -/
theorem BestChoice_perm {now : Int} {l l2 : List Enrollment} {r : Enrollment}
    (h : l.Perm l2) (hb : BestChoice now l2 r) : BestChoice now l r := by
  obtain ⟨h1, h2, h3, h4, h5⟩ := hb
  refine ⟨h.mem_iff.mpr h1, ?_, ?_, ?_, ?_⟩
  · intro hex
    obtain ⟨e, he, hef⟩ := hex
    exact h2 ⟨e, h.mem_iff.mp he, hef⟩
  · intro e he
    exact h3 e (h.mem_iff.mp he)
  · intro e he
    exact h4 e (h.mem_iff.mp he)
  · intro e he
    exact h5 e (h.mem_iff.mp he)

/-- Two records tied on all four ranking criteria of the resolver:
archived flag, raw creation timestamp, completeness score, start date. -/
def tier_tied (a b : Enrollment) : Prop :=
  a.is_archived = b.is_archived ∧ a.created_at = b.created_at ∧
  completeness_score a = completeness_score b ∧ a.start_date = b.start_date

/-- When every record has a creation timestamp and no two distinct
records are tied on all four criteria, the four-tier optimum is
unique. -/
theorem BestChoice_unique {now : Int} {l : List Enrollment}
    {r1 r2 : Enrollment}
    (hcreated : ∀ e ∈ l, e.created_at.isSome = true)
    (hnotie : ∀ a ∈ l, ∀ b ∈ l, tier_tied a b → a = b)
    (h1 : BestChoice now l r1) (h2 : BestChoice now l r2) : r1 = r2 := by
  have hflag : r1.is_archived = r2.is_archived := by
    by_cases hex : ∃ e ∈ l, e.is_archived = false
    · rw [h1.2.1 hex, h2.2.1 hex]
    · push_neg at hex
      have e1 := hex r1 h1.1
      have e2 := hex r2 h2.1
      have b1 : r1.is_archived = true := by
        revert e1
        cases r1.is_archived <;> simp
      have b2 : r2.is_archived = true := by
        revert e2
        cases r2.is_archived <;> simp
      rw [b1, b2]
  have hck : ckey now r1 = ckey now r2 :=
    le_antisymm (h2.2.2.1 r1 h1.1 hflag)
      (h1.2.2.1 r2 h2.1 hflag.symm)
  have hcr : r1.created_at = r2.created_at := by
    obtain ⟨x, hx⟩ := Option.isSome_iff_exists.mp (hcreated r1 h1.1)
    obtain ⟨y, hy⟩ := Option.isSome_iff_exists.mp (hcreated r2 h2.1)
    rw [hx, hy]
    rw [ckey, ckey, hx, hy] at hck
    simpa using hck
  have hscore : completeness_score r1 = completeness_score r2 :=
    le_antisymm (h2.2.2.2.1 r1 h1.1 hflag hcr)
      (h1.2.2.2.1 r2 h2.1 hflag.symm hcr.symm)
  have hstart : r1.start_date = r2.start_date :=
    le_antisymm (h1.2.2.2.2 r2 h2.1 hflag.symm hcr.symm hscore.symm)
      (h2.2.2.2.2 r1 h1.1 hflag hcr hscore)
  exact hnotie r1 h1.1 r2 h2.1 ⟨hflag, hcr, hscore, hstart⟩

instance tier_tied_dec (a b : Enrollment) : Decidable (tier_tied a b) :=
  inferInstanceAs (Decidable (a.is_archived = b.is_archived
    ∧ a.created_at = b.created_at
    ∧ completeness_score a = completeness_score b
    ∧ a.start_date = b.start_date))

/-- Two records identical on every ranked attribute but with different
ids: the resolver's result then depends on the input order. -/
def c1t1 : Enrollment := ⟨1, 0, some 5, false, some 100, none, none, none, none⟩

def c1t2 : Enrollment := ⟨2, 0, some 5, false, some 100, none, none, none, none⟩

/-- Claim C1, counterexample. On a cluster of two records tied through all
four tiers, the two orderings of the same cluster yield different kept
ids, so the selection does depend on the input iteration order. -/
theorem c1_order_dependence_counterexample :
    ([c1t1, c1t2].Perm [c1t2, c1t1])
    ∧ select_best_enrollment 0 [c1t1, c1t2] = some c1t1
    ∧ select_best_enrollment 0 [c1t2, c1t1] = some c1t2
    ∧ c1t1.id ≠ c1t2.id :=
  ⟨List.Perm.swap c1t2 c1t1 [], by decide, by decide, by decide⟩

/-- Claim C1, amended. The resolver is permutation-invariant provided
every member has a creation timestamp and no two distinct members are
tied simultaneously on all four ranking criteria (archived flag, raw
creation timestamp, completeness score, start date): then any
permutation of the cluster yields the same result. -/
theorem c1_resolver_determinism_amended (now : Int) (l l2 : List Enrollment)
    (hperm : l.Perm l2)
    (hcreated : ∀ e ∈ l, e.created_at.isSome = true)
    (hnotie : ∀ a ∈ l, ∀ b ∈ l, tier_tied a b → a = b) :
    select_best_enrollment now l = select_best_enrollment now l2 := by
  by_cases hlen : 2 ≤ l.length
  · obtain ⟨r1, hs1, hb1⟩ := select_best_some now l hlen
    obtain ⟨r2, hs2, hb2⟩ := select_best_some now l2 (hperm.length_eq ▸ hlen)
    have hb2l : BestChoice now l r2 := BestChoice_perm hperm hb2
    rw [hs1, hs2, BestChoice_unique hcreated hnotie hb1 hb2l]
  · rcases l with _ | ⟨a, _ | ⟨b, t⟩⟩
    · rw [hperm.symm.eq_nil]
    · rw [List.perm_singleton.mp hperm.symm]
    · exfalso
      apply hlen
      simp

/-- Witness for the amended C1: two records with distinct creation
timestamps, resolved identically in both orders. -/
def c1w1 : Enrollment := ⟨1, 0, some 5, false, some 100, none, none, none, none⟩

def c1w2 : Enrollment := ⟨2, 3, some 8, false, some 200, none, none, none, none⟩

theorem c1_resolver_determinism_witness :
    ([c1w1, c1w2].Perm [c1w2, c1w1])
    ∧ (∀ e ∈ [c1w1, c1w2], e.created_at.isSome = true)
    ∧ (∀ a ∈ [c1w1, c1w2], ∀ b ∈ [c1w1, c1w2], tier_tied a b → a = b)
    ∧ select_best_enrollment 7 [c1w1, c1w2]
        = select_best_enrollment 7 [c1w2, c1w1] :=
  ⟨List.Perm.swap c1w2 c1w1 [], by decide, by decide,
   c1_resolver_determinism_amended 7 [c1w1, c1w2] [c1w2, c1w1]
     (List.Perm.swap c1w2 c1w1 []) (by decide) (by decide)⟩

/-- Claim C3, counterexample. Given a singleton cluster the resolver does
not fail: it silently returns the single record (the source returns
`enrollments[0]` when `len(enrollments) == 1`; no `InvalidInputError`
exists anywhere in the code). -/
theorem c3_singleton_no_error_counterexample :
    select_best_enrollment 0 [⟨1, 0, none, false, none, none, none, none, none⟩]
      = some ⟨1, 0, none, false, none, none, none, none, none⟩ := by decide

/-- Claim C3, amended. The resolver enforces no minimum cluster size:
a singleton cluster is silently resolved to its only record, an empty
cluster produces no result (the Python code raises a plain IndexError,
not a dedicated error type), and `remove_duplicate_group` silently
returns no result for any group of size at most one. -/
theorem c3_small_cluster_behavior (now : Int) (r : Enrollment) :
    select_best_enrollment now [r] = some r
    ∧ select_best_enrollment now [] = none
    ∧ ∀ g : List Enrollment, g.length ≤ 1 →
        remove_duplicate_group now g = none := by
  refine ⟨rfl, rfl, ?_⟩
  intro g hg
  rw [remove_duplicate_group, if_pos hg]

/-- Witness for the amended C3 at concrete inputs. -/
theorem c3_small_cluster_behavior_witness :
    select_best_enrollment 0 [⟨2, 1, none, true, none, none, none, none, none⟩]
      = some ⟨2, 1, none, true, none, none, none, none, none⟩
    ∧ (([] : List Enrollment).length ≤ 1
        ∧ remove_duplicate_group 0 [] = none) := by
  obtain ⟨h1, _, h3⟩ := c3_small_cluster_behavior 0
    ⟨2, 1, none, true, none, none, none, none, none⟩
  exact ⟨h1, by decide, h3 [] (by decide)⟩

/-- C7 counterexample records: `c7a` has only non-empty notes
(score 10), `c7b` has no notes but a receiving-services date, an active
status and a sub-program (also score 10) and an earlier start;
`c7c` is a later-created third record without notes. -/
def c7a : Enrollment :=
  ⟨1, 5, some 10, false, some 100, some "kept", none, none, none⟩

def c7b : Enrollment :=
  ⟨2, 0, some 10, false, some 100, none, some 3, some "active", some 7⟩

def c7c : Enrollment := ⟨3, 0, some 10, false, some 200, none, none, none, none⟩

/-- Claim C7, counterexample. Two candidates tied on archived-state and
creation timestamp where exactly one has non-empty notes: the resolver
keeps the one **without** notes when the other completeness fields make
the scores tie (tier 4 then prefers the earlier start).  And in a
cluster merely *containing* such a pair, a later-created third record
without notes wins outright. -/
theorem c7_notes_tiebreak_counterexample :
    (c7a.is_archived = c7b.is_archived ∧ c7a.created_at = c7b.created_at
      ∧ notes_truthy c7a = true ∧ notes_truthy c7b = false)
    ∧ select_best_enrollment 0 [c7a, c7b] = some c7b
    ∧ select_best_enrollment 0 [c7a, c7b, c7c] = some c7c
    ∧ notes_truthy c7c = false :=
  ⟨by decide, by decide, by decide, by decide⟩

/-- Claim C7, amended. For a two-member cluster tied on archived-state
and creation timestamp where exactly one member has non-empty notes
*and the members agree on the other three completeness attributes*
(receiving-services date set-ness, the status contribution, sub-program
set-ness), the resolver keeps the member with non-empty notes, in
either input order. -/
theorem c7_notes_tiebreak_amended (now : Int) (a b : Enrollment)
    (harch : a.is_archived = b.is_archived)
    (hcreated : a.created_at = b.created_at)
    (hna : notes_truthy a = true) (hnb : notes_truthy b = false)
    (hrecv : a.receiving_services_date.isSome
      = b.receiving_services_date.isSome)
    (hstat : status_counts a = status_counts b)
    (hsubp : a.sub_program.isSome = b.sub_program.isSome) :
    select_best_enrollment now [a, b] = some a
    ∧ select_best_enrollment now [b, a] = some a := by
  have hscore : completeness_score b < completeness_score a := by
    rw [completeness_score, completeness_score, hna, hnb, hrecv, hstat, hsubp]
    simp
  constructor
  · obtain ⟨r, hs, hb⟩ := select_best_some now [a, b] (by simp)
    have hra : r = a := by
      rcases List.mem_cons.mp hb.1 with rfl | h
      · rfl
      · rw [List.mem_singleton] at h
        subst h
        have := hb.2.2.2.1 a (List.mem_cons_self _ _) harch hcreated
        omega
    rw [hra] at hs
    exact hs
  · obtain ⟨r, hs, hb⟩ := select_best_some now [b, a] (by simp)
    have hra : r = a := by
      rcases List.mem_cons.mp hb.1 with rfl | h
      · have := hb.2.2.2.1 a
          (List.mem_cons_of_mem _ (List.mem_cons_self _ _)) harch hcreated
        omega
      · rw [List.mem_singleton] at h
        exact h
    rw [hra] at hs
    exact hs

/-- Witness records for the amended C7: identical except that only the
first carries notes. -/
def c7wa : Enrollment :=
  ⟨1, 5, some 10, false, some 100, some "notes", none, none, none⟩

def c7wb : Enrollment := ⟨2, 0, some 10, false, some 100, none, none, none, none⟩

theorem c7_notes_tiebreak_witness :
    (c7wa.is_archived = c7wb.is_archived
      ∧ c7wa.created_at = c7wb.created_at
      ∧ notes_truthy c7wa = true ∧ notes_truthy c7wb = false)
    ∧ select_best_enrollment 0 [c7wa, c7wb] = some c7wa
    ∧ select_best_enrollment 0 [c7wb, c7wa] = some c7wa :=
  ⟨by decide,
   (c7_notes_tiebreak_amended 0 c7wa c7wb (by decide) (by decide) (by decide)
     (by decide) (by decide) (by decide) (by decide)).1,
   (c7_notes_tiebreak_amended 0 c7wa c7wb (by decide) (by decide) (by decide)
     (by decide) (by decide) (by decide) (by decide)).2⟩

/-- C8 counterexample records: two archived records listed in ascending
creation order. -/
def c8a : Enrollment := ⟨1, 0, none, true, some 10, none, none, none, none⟩

def c8b : Enrollment := ⟨2, 0, none, true, some 20, none, none, none, none⟩

/-- Claim C8, counterexample. The resolver does not always leave the input
list unchanged: when every member is archived, line 172 aliases
`candidates` to the caller's list and line 175 sorts it in place, so the
caller's list comes back reordered (here `[c8a, c8b]` becomes
`[c8b, c8a]`). -/
theorem c8_input_mutation_counterexample :
    select_best_enrollment_post 0 [c8a, c8b] = [c8b, c8a]
    ∧ ([c8b, c8a] : List Enrollment) ≠ [c8a, c8b] :=
  ⟨by decide, by decide⟩

/-- Claim C8, amended. The resolver never mutates any record and never
adds or removes records from the caller's list — the post-state is
always a permutation of the input — and it leaves the input order fully
unchanged whenever at least one member is non-archived (or the cluster
is a singleton).  Only in the all-archived case is the caller's list
reordered in place. -/
theorem c8_resolver_frame_amended (now : Int) (l : List Enrollment) :
    (select_best_enrollment_post now l).Perm l
    ∧ ((∃ e ∈ l, e.is_archived = false) →
        select_best_enrollment_post now l = l) := by
  have hunf : select_best_enrollment_post now l =
      if l.length = 1 then l
      else if (l.filter (fun e => !e.is_archived)).isEmpty
        then sorted_by_created_desc now l else l := rfl
  rw [hunf]
  by_cases hlen : l.length = 1
  · rw [if_pos hlen]
    exact ⟨List.Perm.refl l, fun _ => rfl⟩
  · rw [if_neg hlen]
    by_cases hemp : (l.filter (fun e => !e.is_archived)).isEmpty
    · rw [if_pos hemp]
      refine ⟨List.perm_insertionSort _ l, ?_⟩
      intro hex
      exfalso
      obtain ⟨e, he, hef⟩ := hex
      have hena : e ∈ l.filter (fun e => !e.is_archived) :=
        List.mem_filter.mpr ⟨he, by rw [hef]; rfl⟩
      rw [List.isEmpty_iff] at hemp
      rw [hemp] at hena
      exact List.not_mem_nil e hena
    · rw [if_neg hemp]
      exact ⟨List.Perm.refl l, fun _ => rfl⟩

/-- Witness list for the amended C8: one non-archived member present. -/
def c8w : List Enrollment :=
  [⟨1, 0, none, false, some 5, none, none, none, none⟩,
   ⟨2, 1, none, true, none, none, none, none, none⟩]

theorem c8_resolver_frame_witness :
    (select_best_enrollment_post 0 c8w).Perm c8w
    ∧ (∃ e ∈ c8w, e.is_archived = false)
    ∧ select_best_enrollment_post 0 c8w = c8w :=
  ⟨(c8_resolver_frame_amended 0 c8w).1, by decide,
   (c8_resolver_frame_amended 0 c8w).2 (by decide)⟩
